import Mathlib

/-!
Verification of the spamcontest bot core against its design document.

This file is a shallow embedding of the logic in `src/lib.rs`:
the per-message handler decision (`Handler::message`), the duration parsing,
the tally (`Contest::count` over a `HashMap<UserId, SpamCount>`, modelled as an
association list with unique keys), the competition ranking
(`Contest::ranking_by`, built from `sort_unstable_by_key`, itertools
`chunk_by` and the `cur_rank_num` loop), the effect sequence of `run_contest`
(announcement / pin / registry insert / registry remove / delete / unpin /
results, with fallible sends), and two small interleaving models: one for two
concurrent `Handler::message` invocations racing to start a contest on the
same idle channel, and one for the mpsc-based collection phase of a session
(bounded buffer of capacity 8, `tokio::select!` between the timer and the
receive loop).

Machine integers (`u64`, `usize`) are modelled as `Nat`; `u64::from_str`
keeps the `< 2^64` bound.  Rust's `str::to_lowercase` is modelled on the
ASCII range (`Char.toLower`), which agrees with the source on all ASCII
input; Unicode case-folding tables are out of scope.  `HashMap` iteration
order is unspecified in the source, and no theorem below depends on the
order of the association list.
-/

/-! ## Data model (src/lib.rs:102-111) -/

abbrev UserId := Nat

/-- `SpamCount` (src/lib.rs:102-106): per-author message and character tally. -/
structure SpamCount where
  messages : Nat
  characters : Nat
  deriving DecidableEq

/-- An inbound chat message, reduced to the two fields `Contest::count` reads:
`message.author.id` and `message.content`. -/
structure ChatMessage where
  author : UserId
  content : String
  deriving DecidableEq

/-- `Contest` (src/lib.rs:108-111): `counts: HashMap<UserId, SpamCount>`,
modelled as an association list with unique keys. -/
structure Contest where
  counts : List (UserId × SpamCount)
  deriving DecidableEq

/-- `HashMap::get` on the association list. -/
def lookupCount (a : UserId) : List (UserId × SpamCount) → Option SpamCount
  | [] => none
  | (u, c) :: rest => if u = a then some c else lookupCount a rest

/-- The `get_mut` / `insert` match of `Contest::count` (src/lib.rs:120-134):
update the author's entry in place, or create `{messages: 1, characters: n}`. -/
def updateCounts : List (UserId × SpamCount) → UserId → Nat → List (UserId × SpamCount)
  | [], a, n => [(a, ⟨1, n⟩)]
  | (u, c) :: rest, a, n =>
      if u = a then (u, ⟨c.messages + 1, c.characters + n⟩) :: rest
      else (u, c) :: updateCounts rest a n

/-- `message.content.chars().count()` (src/lib.rs:119): the number of Unicode
scalar values of the text (`String.data` in Lean is the list of scalar values). -/
def charsOf (m : ChatMessage) : Nat := m.content.data.length

/-- `Contest::count` (src/lib.rs:118-135). -/
def Contest.count (c : Contest) (m : ChatMessage) : Contest :=
  ⟨updateCounts c.counts m.author (charsOf m)⟩

/-- Folding a whole message sequence into an initially empty `Contest`
(the receive loop of src/lib.rs:200-202 applied to the delivered messages). -/
def runTally (ms : List ChatMessage) : Contest :=
  ms.foldl Contest.count ⟨[]⟩

/-- The messages of one author within a sequence. -/
def msgsBy (a : UserId) (ms : List ChatMessage) : List ChatMessage :=
  ms.filter (fun m => decide (m.author = a))

/-! ## Trigger detection and duration parsing (src/lib.rs:19-24, 53-60) -/

/-- ASCII whitespace as used by `str::split_ascii_whitespace`:
space, tab, LF, FF, CR. -/
def isAsciiWs (c : Char) : Bool :=
  c.toNat = 32 || c.toNat = 9 || c.toNat = 10 || c.toNat = 12 || c.toNat = 13

/-- Worker for `split_ascii_whitespace`: `cur` is the token being built. -/
def splitAsciiWsGo : List Char → List Char → List (List Char)
  | [], cur => if cur.isEmpty then [] else [cur]
  | c :: cs, cur =>
      if isAsciiWs c then
        if cur.isEmpty then splitAsciiWsGo cs [] else cur :: splitAsciiWsGo cs []
      else splitAsciiWsGo cs (cur ++ [c])

/-- `content.split_ascii_whitespace()` (src/lib.rs:56): the non-empty
whitespace-delimited tokens. -/
def splitAsciiWs (s : String) : List (List Char) := splitAsciiWsGo s.data []

/-- Numeric value of an ASCII digit. -/
def digitVal (c : Char) : Nat := c.toNat - 48

/-- `w.parse::<u64>()` (src/lib.rs:57): an optional leading plus sign, then one
or more ASCII digits, and the value must fit in a `u64`. -/
def parseU64 (w : List Char) : Option Nat :=
  let ds := match w with
    | '+' :: r => r
    | _ => w
  if ds.isEmpty then none
  else if ds.all Char.isDigit then
    let v := ds.foldl (fun n c => n * 10 + digitVal c) 0
    if v < 2 ^ 64 then some v else none
  else none

/-- `DEFAULT_CONTEST_DURATION` (src/lib.rs:19), in seconds. -/
def DEFAULT_CONTEST_DURATION : Nat := 60

/-- `PIN_ANNOUNCEMENT_THRESHOLD` (src/lib.rs:24), in seconds. -/
def PIN_ANNOUNCEMENT_THRESHOLD : Nat := 5 * 60

/-- Membership in `ALLOWED_DURATION_RANGE` (src/lib.rs:21-22):
`Duration::from_secs(10)..=Duration::from_secs(60 * 60)`. -/
def inAllowedDurationRange (v : Nat) : Bool := 10 ≤ v && v ≤ 60 * 60

/-- The values of the parseable tokens of the message text, in token order
(`split_ascii_whitespace().filter_map(|w| w.parse().ok())`). -/
def parsedValues (content : String) : List Nat :=
  (splitAsciiWs content).filterMap parseU64

/-- Duration resolution (src/lib.rs:54-60): the first parseable token value
that lies in the allowed range, or the default.  Note the source applies
`find` AFTER `filter_map`, so parseable values outside the range are skipped. -/
def resolveDuration (content : String) : Nat :=
  ((parsedValues content).find? inAllowedDurationRange).getD DEFAULT_CONTEST_DURATION

/-- `to_lowercase` restricted to ASCII (agrees with the source on ASCII text):
lowercase every scalar value of the text. -/
def lowerAscii (s : String) : String := ⟨s.data.map Char.toLower⟩

/-- `str::contains` on a needle, over scalar-value lists. -/
def containsSub (needle : List Char) : List Char → Bool
  | [] => needle.isEmpty
  | c :: cs => needle.isPrefixOf (c :: cs) || containsSub needle cs

/-- `msg.content.to_lowercase().contains("spam")` (src/lib.rs:53). -/
def triggersContest (content : String) : Bool :=
  containsSub ("spam".data) (lowerAscii content).data

/-- The three ways `Handler::message` can treat an inbound message. -/
inductive HandlerAction where
  | route
  | startContest (durationSecs : Nat) (pin : Bool)
  | ignore
  deriving DecidableEq

/-- The per-message decision of `Handler::message` (src/lib.rs:41-89):
route to an active contest if the channel has one, otherwise start a contest
when the trigger substring is present (with the resolved duration and the
pin flag `duration >= PIN_ANNOUNCEMENT_THRESHOLD`), otherwise do nothing. -/
def handlerDecision (channelActive : Bool) (content : String) : HandlerAction :=
  if channelActive then .route
  else if triggersContest content then
    .startContest (resolveDuration content)
      (decide (PIN_ANNOUNCEMENT_THRESHOLD ≤ resolveDuration content))
  else .ignore

/-- Modelled from the spec (section 4.4 step 3 and claim C1), for comparison
with `resolveDuration`: the very first parseable token proposes the duration;
if that value is out of range the default is used, and no later token is
retried. -/
def specFirstTokenDuration (content : String) : Nat :=
  match (parsedValues content).head? with
  | some v => if inAllowedDurationRange v then v else DEFAULT_CONTEST_DURATION
  | none => DEFAULT_CONTEST_DURATION

/-! ## Ranking (src/lib.rs:137-160) -/

/-- Comparison of elements by a sort key, as in `sort_unstable_by_key`. -/
def keyLe {α K : Type} [LinearOrder K] (fk : α → K) (p q : α) : Prop := fk p ≤ fk q

instance {α K : Type} [LinearOrder K] (fk : α → K) : DecidableRel (keyLe fk) :=
  fun p q => inferInstanceAs (Decidable (fk p ≤ fk q))

instance {α K : Type} [LinearOrder K] (fk : α → K) : IsTotal α (keyLe fk) :=
  ⟨fun a b => le_total (fk a) (fk b)⟩

instance {α K : Type} [LinearOrder K] (fk : α → K) : IsTrans α (keyLe fk) :=
  ⟨fun _ _ _ hab hbc => le_trans hab hbc⟩

/-- Worker for `chunk_by`: `x` is the first element of the current group and
`acc` the rest of the current group, in order. -/
def chunkByGo {α K : Type} [DecidableEq K] (k : α → K) : List α → α → List α → List (List α)
  | [], x, acc => [x :: acc]
  | y :: ys, x, acc =>
      if k y = k x then chunkByGo k ys x (acc ++ [y])
      else (x :: acc) :: chunkByGo k ys y []

/-- itertools `chunk_by` (src/lib.rs:149): maximal runs of adjacent elements
with equal key. -/
def chunkBy {α K : Type} [DecidableEq K] (k : α → K) : List α → List (List α)
  | [] => []
  | x :: xs => chunkByGo k xs x []

/-- The `cur_rank_num` loop of `ranking_by` (src/lib.rs:148-158): every member
of a group receives the group's rank, and the next group's rank is the current
rank plus the group size. -/
def assignGroupRanks {α : Type} : Nat → List (List α) → List (Nat × List α)
  | _, [] => []
  | r, g :: gs => (r, g) :: assignGroupRanks (r + g.length) gs

/-- The sort key is applied to the `SpamCount` component (`|(_, c)| fk(c)`,
src/lib.rs:145). -/
def pairKey {K : Type} (fk : SpamCount → K) (p : UserId × SpamCount) : K := fk p.2

/-- The rank tiers of `Contest::ranking_by` (src/lib.rs:137-160): sort the
entries ascending by key (`sort_unstable_by_key`, modelled by insertion sort;
the relative order of tied entries is unspecified in the source), group
adjacent equal keys (`chunk_by`), and assign competition ranks starting at 1. -/
def rankedGroups {K : Type} [LinearOrder K] (fk : SpamCount → K)
    (counts : List (UserId × SpamCount)) : List (Nat × List (UserId × SpamCount)) :=
  assignGroupRanks 1 (chunkBy (pairKey fk) (List.insertionSort (keyLe (pairKey fk)) counts))

/-- The ranking as a flat list of `(rank, author, tally)` entries, in the
order the nested loop of `ranking_by` visits them. -/
def rankedEntries {K : Type} [LinearOrder K] (fk : SpamCount → K)
    (counts : List (UserId × SpamCount)) : List (Nat × UserId × SpamCount) :=
  (rankedGroups fk counts).flatMap (fun rg => rg.2.map (fun p => (rg.1, p.1, p.2)))

/-- One output line per participant (src/lib.rs:152-154). -/
def rankLine (r : Nat) (u : UserId) (d : String) : String :=
  ("**") ++ toString r ++ (".:** <@") ++ toString u ++ ("> (") ++ d ++ (")\n")

/-- `Contest::ranking_by` (src/lib.rs:137-160): the rendered ranking string,
one line per entry. -/
def rankingBy {K : Type} [LinearOrder K] (fk : SpamCount → K) (fd : SpamCount → String)
    (c : Contest) : String :=
  String.join ((rankedEntries fk c.counts).map (fun e => rankLine e.1 e.2.1 (fd e.2.2)))

/-- `counts.ranking_by(|c| Reverse(c.messages), |c| c.messages)` (src/lib.rs:226):
descending by message count via the order dual. -/
def rankingByMessages (c : Contest) : String :=
  rankingBy (fun s => (OrderDual.toDual s.messages : OrderDual Nat)) (fun s => toString s.messages) c

/-- `counts.ranking_by(|c| Reverse(c.characters), |c| c.characters)` (src/lib.rs:231). -/
def rankingByCharacters (c : Contest) : String :=
  rankingBy (fun s => (OrderDual.toDual s.characters : OrderDual Nat)) (fun s => toString s.characters) c

/-! ## The effect sequence of `run_contest` (src/lib.rs:163-240) -/

/-- The outward-visible operations `run_contest` performs, in order. -/
inductive ContestEffect where
  | sendAnnouncement
  | pinAnnouncement
  | registryInsert
  | registryRemove
  | deleteAnnouncement
  | unpinAnnouncement
  | sendResults (byMessages byCharacters : String)
  deriving DecidableEq

/-- The effect trace of one `run_contest` call plus whether it returned `Ok`. -/
structure RunResult where
  effects : List ContestEffect
  ok : Bool
  deriving DecidableEq

/-- `run_contest` (src/lib.rs:163-240) as its sequence of performed gateway and
registry operations.  The collecting phase is abstracted: `tallied` is the
`Contest` accumulated when the timer fires (its semantics is `sessStep` below).
`aOk`, `dOk`, `rOk` say whether the three fallible calls (announcement send,
announcement delete, results send, each followed by `?` in the source) succeed;
pinning and unpinning are best-effort (`.ok()`) and always recorded.
A failed fallible call aborts the rest of the function with `Err`. -/
def runContestEffects (aOk dOk rOk pin : Bool) (tallied : Contest) : RunResult :=
  if aOk = false then ⟨[], false⟩
  else
    let pre := [ContestEffect.sendAnnouncement]
      ++ (if pin then [ContestEffect.pinAnnouncement] else [])
      ++ [ContestEffect.registryInsert, ContestEffect.registryRemove]
    if tallied.counts.isEmpty then
      if dOk then ⟨pre ++ [ContestEffect.deleteAnnouncement], true⟩ else ⟨pre, false⟩
    else
      let withUnpin := pre ++ (if pin then [ContestEffect.unpinAnnouncement] else [])
      if rOk then
        ⟨withUnpin ++ [ContestEffect.sendResults (rankingByMessages tallied) (rankingByCharacters tallied)], true⟩
      else ⟨withUnpin, false⟩

/-- Whether the registry still holds an entry for the channel after replaying
the registry operations of an effect trace. -/
def registryActiveAfter (l : List ContestEffect) : Bool :=
  l.foldl (fun st e =>
    match e with
    | ContestEffect.registryInsert => true
    | ContestEffect.registryRemove => false
    | _ => st) false

/-! ## Interleaving model: two racing contest starters (src/lib.rs:42-51, 185-206)

Two concurrent `Handler::message` invocations, A (`false`) and B (`true`),
each handling a trigger message for the SAME idle channel.  Each task runs,
in program order: the `contests.get` check (line 42), the awaited announcement
send (lines 173-185), `contests.insert` (line 195, unconditional: an existing
entry for the key is replaced and its sender dropped), then collecting; after
its timer fires, `contests.remove` (line 206).  `aliveX` records whether X's
`mpsc::Sender` is still held by the map; `recvClosed` is the receive loop
observing `None` (all senders dropped), which is the `unreachable!` branch of
the `select!` (line 203). -/

inductive TaskPc where
  | check
  | announce
  | insertPc
  | collect
  | removePc
  | doneTask
  | routed
  | panicked
  deriving DecidableEq

structure RaceState where
  pcA : TaskPc
  pcB : TaskPc
  regOwner : Option Bool
  aliveA : Bool
  aliveB : Bool
  annCount : Nat
  closedA : Bool
  closedB : Bool
  deriving DecidableEq

def raceInit : RaceState :=
  ⟨.check, .check, none, false, false, 0, false, false⟩

def RaceState.pc (s : RaceState) (t : Bool) : TaskPc :=
  if t then s.pcB else s.pcA

def RaceState.setPc (s : RaceState) (t : Bool) (p : TaskPc) : RaceState :=
  if t then { s with pcB := p } else { s with pcA := p }

def RaceState.alive (s : RaceState) (t : Bool) : Bool :=
  if t then s.aliveB else s.aliveA

def RaceState.setAlive (s : RaceState) (t : Bool) (b : Bool) : RaceState :=
  if t then { s with aliveB := b } else { s with aliveA := b }

def RaceState.setClosed (s : RaceState) (t : Bool) : RaceState :=
  if t then { s with closedB := true } else { s with closedA := true }

inductive RaceEv where
  | advance (t : Bool)
  | timerFire (t : Bool)
  | recvClosed (t : Bool)
  deriving DecidableEq

/-- One scheduler step: `advance t` runs task `t` up to its next suspension
point, `timerFire t` completes t's `sleep` branch, and `recvClosed t` is t's
receive loop returning `None`, possible only when t's sender has been dropped. -/
def raceStep (s : RaceState) (e : RaceEv) : RaceState :=
  match e with
  | .advance t =>
      match s.pc t with
      | .check => if s.regOwner.isSome then s.setPc t .routed else s.setPc t .announce
      | .announce => { s.setPc t .insertPc with annCount := s.annCount + 1 }
      | .insertPc =>
          let s1 := match s.regOwner with
            | some u => s.setAlive u false
            | none => s
          (({ s1 with regOwner := some t }).setAlive t true).setPc t .collect
      | .removePc =>
          let s1 := match s.regOwner with
            | some u => { s.setAlive u false with regOwner := none }
            | none => s
          s1.setPc t .doneTask
      | _ => s
  | .timerFire t => if s.pc t = .collect then s.setPc t .removePc else s
  | .recvClosed t =>
      if s.pc t = .collect ∧ s.alive t = false then (s.setClosed t).setPc t .panicked else s

def raceRun (evs : List RaceEv) : RaceState := evs.foldl raceStep raceInit

/-! ## Interleaving model: one session's collection phase (src/lib.rs:193-209)

`deliver` is `Handler::message` sending into the bounded mpsc channel
(capacity 8, line 194), possible while the registry entry exists; `recvMsg`
is one iteration of the receive loop inside the `select!` (lines 200-202),
possible only while the timer has not fired; `expire` is the sleep branch
completing, which drops the receive future (buffered messages are no longer
consumed); `removeEntry` is `contests.remove` (line 206); `readTally` is the
read of `counts` for rendering (lines 209-236), which in the source happens
strictly after the removal.  Messages are identified by a `Nat`. -/

structure SessState where
  buffer : List Nat
  consumed : List Nat
  expired : Bool
  removed : Bool
  tallyRead : Option (List Nat)
  deriving DecidableEq

def sessInit : SessState := ⟨[], [], false, false, none⟩

inductive SessEv where
  | deliver (m : Nat)
  | recvMsg
  | expire
  | removeEntry
  | readTally
  deriving DecidableEq

def sessStep (s : SessState) (e : SessEv) : SessState :=
  match e with
  | .deliver m =>
      if s.removed = false ∧ s.buffer.length < 8 then { s with buffer := s.buffer ++ [m] } else s
  | .recvMsg =>
      if s.expired then s
      else
        match s.buffer with
        | [] => s
        | m :: rest => { s with buffer := rest, consumed := s.consumed ++ [m] }
  | .expire => { s with expired := true }
  | .removeEntry => if s.expired ∧ s.removed = false then { s with removed := true } else s
  | .readTally =>
      if s.removed ∧ s.tallyRead = none then { s with tallyRead := some s.consumed } else s

def sessRunFrom (s : SessState) (evs : List SessEv) : SessState := evs.foldl sessStep s

def sessRun (evs : List SessEv) : SessState := sessRunFrom sessInit evs

/-- The racing schedule: both tasks pass the idle check before either inserts
(possible because the announcement send is awaited between the two). -/
def raceSchedule : List RaceEv :=
  [.advance false, .advance true, .advance false, .advance true, .advance false, .advance true]

/-! ## General helper lemmas -/

/-- `List.find?` returns the first element satisfying the predicate: either the
list splits at that element with everything before it failing the predicate, or
no element satisfies it. -/
theorem find_first_split {α : Type} (p : α → Bool) (l : List α) :
    (∃ pre a post, l = pre ++ a :: post ∧ (∀ b ∈ pre, p b = false) ∧ p a = true ∧
      l.find? p = some a)
    ∨ ((∀ a ∈ l, p a = false) ∧ l.find? p = none) := by
  induction l with
  | nil => exact Or.inr ⟨by simp, rfl⟩
  | cons x t ih =>
    cases hx : p x with
    | true =>
      exact Or.inl ⟨[], x, t, rfl, by simp, hx, by simp [List.find?, hx]⟩
    | false =>
      rcases ih with ⟨pre, a, post, heq, hpre, ha, hfind⟩ | ⟨hall, hfind⟩
      · refine Or.inl ⟨x :: pre, a, post, by rw [heq]; rfl, ?_, ha, ?_⟩
        · intro b hb
          rcases List.mem_cons.mp hb with hb | hb
          · rw [hb]; exact hx
          · exact hpre b hb
        · simp [List.find?, hx, hfind]
      · refine Or.inr ⟨?_, ?_⟩
        · intro a ha
          rcases List.mem_cons.mp ha with h | h
          · rw [h]; exact hx
          · exact hall a h
        · simp [List.find?, hx, hfind]

/-- `lookupCount` after `updateCounts`: the updated author's entry is
incremented (or created as `{1, n}`), every other author is untouched. -/
theorem lookupCount_updateCounts (l : List (UserId × SpamCount)) (a b : UserId) (n : Nat) :
    lookupCount a (updateCounts l b n)
      = if a = b then
          some (match lookupCount b l with
            | none => (⟨1, n⟩ : SpamCount)
            | some t => ⟨t.messages + 1, t.characters + n⟩)
        else lookupCount a l := by
  induction l with
  | nil =>
      by_cases hab : a = b
      · subst hab; simp [updateCounts, lookupCount]
      · have hba : ¬b = a := fun h => hab h.symm
        simp [updateCounts, lookupCount, hab, hba]
  | cons hd rest ih =>
      obtain ⟨u, c⟩ := hd
      by_cases hub : u = b
      · subst hub
        by_cases hau : u = a
        · subst hau; simp [updateCounts, lookupCount]
        · have hau2 : ¬a = u := fun h => hau h.symm
          simp [updateCounts, lookupCount, hau, hau2]
      · by_cases hau : u = a
        · subst hau
          simp [updateCounts, lookupCount, hub]
        · simp [updateCounts, lookupCount, hub, hau, ih]

/-- An author is absent from the association list iff lookup returns `none`. -/
theorem lookupCount_eq_none (a : UserId) (l : List (UserId × SpamCount)) :
    lookupCount a l = none ↔ a ∉ l.map Prod.fst := by
  induction l with
  | nil => simp [lookupCount]
  | cons hd rest ih =>
      obtain ⟨u, c⟩ := hd
      by_cases h : u = a
      · subst h; simp [lookupCount]
      · have h2 : ¬a = u := fun hh => h hh.symm
        simp only [lookupCount, if_neg h, ih, List.map_cons, List.mem_cons, not_or]
        constructor
        · intro hn
          exact ⟨h2, hn⟩
        · intro hn
          exact hn.2

/-- Once the timer has fired, no later event resets it. -/
theorem sessStep_expired_mono (s : SessState) (e : SessEv) (h : s.expired = true) :
    (sessStep s e).expired = true := by
  cases e with
  | deliver m => simp only [sessStep]; split <;> exact h
  | recvMsg => simp [sessStep, h]
  | expire => rfl
  | removeEntry => simp only [sessStep]; split <;> exact h
  | readTally => simp only [sessStep]; split <;> exact h

/-- Once the timer has fired, the set of counted messages never changes again:
the receive branch of the `select!` has been dropped, so buffered messages are
no longer consumed. -/
theorem sessStep_consumed_frozen (s : SessState) (e : SessEv) (h : s.expired = true) :
    (sessStep s e).consumed = s.consumed := by
  cases e with
  | deliver m => simp only [sessStep]; split <;> rfl
  | recvMsg => simp [sessStep, h]
  | expire => rfl
  | removeEntry => simp only [sessStep]; split <;> rfl
  | readTally => simp only [sessStep]; split <;> rfl

theorem sessRunFrom_expired_mono (evs : List SessEv) (s : SessState) (h : s.expired = true) :
    (sessRunFrom s evs).expired = true := by
  induction evs generalizing s with
  | nil => exact h
  | cons e rest ih => exact ih (sessStep s e) (sessStep_expired_mono s e h)

theorem sessRunFrom_consumed_frozen (evs : List SessEv) (s : SessState) (h : s.expired = true) :
    (sessRunFrom s evs).consumed = s.consumed := by
  induction evs generalizing s with
  | nil => rfl
  | cons e rest ih =>
      have h1 : sessRunFrom s (e :: rest) = sessRunFrom (sessStep s e) rest := rfl
      rw [h1, ih (sessStep s e) (sessStep_expired_mono s e h), sessStep_consumed_frozen s e h]

/-- Single-step preservation of the session invariant: the registry entry is
removed only after expiry, and a read tally equals the consumed messages. -/
theorem sessStep_inv (s : SessState) (e : SessEv)
    (h1 : s.removed = true → s.expired = true)
    (h2 : ∀ l, s.tallyRead = some l → l = s.consumed ∧ s.removed = true) :
    ((sessStep s e).removed = true → (sessStep s e).expired = true) ∧
    (∀ l, (sessStep s e).tallyRead = some l →
      l = (sessStep s e).consumed ∧ (sessStep s e).removed = true) := by
  cases e with
  | deliver m =>
      by_cases hc : s.removed = false ∧ s.buffer.length < 8
      · have hst : sessStep s (SessEv.deliver m) = { s with buffer := s.buffer ++ [m] } :=
          if_pos hc
        rw [hst]; exact ⟨h1, h2⟩
      · have hst : sessStep s (SessEv.deliver m) = s := if_neg hc
        rw [hst]; exact ⟨h1, h2⟩
  | recvMsg =>
      by_cases hexp : s.expired = true
      · have hst : sessStep s SessEv.recvMsg = s := by simp [sessStep, hexp]
        rw [hst]; exact ⟨h1, h2⟩
      · cases hb : s.buffer with
        | nil =>
            have hst : sessStep s SessEv.recvMsg = s := by simp [sessStep, hexp, hb]
            rw [hst]; exact ⟨h1, h2⟩
        | cons m rest =>
            have hst : sessStep s SessEv.recvMsg
                = { s with buffer := rest, consumed := s.consumed ++ [m] } := by
              simp [sessStep, hexp, hb]
            rw [hst]
            refine ⟨h1, ?_⟩
            intro l hl
            exact absurd (h1 (h2 l hl).2) hexp
  | expire =>
      exact ⟨fun _ => rfl, fun l hl => h2 l hl⟩
  | removeEntry =>
      by_cases hc : s.expired = true ∧ s.removed = false
      · have hst : sessStep s SessEv.removeEntry = { s with removed := true } := if_pos hc
        rw [hst]
        exact ⟨fun _ => hc.1, fun l hl => ⟨(h2 l hl).1, rfl⟩⟩
      · have hst : sessStep s SessEv.removeEntry = s := if_neg hc
        rw [hst]; exact ⟨h1, h2⟩
  | readTally =>
      by_cases hc : s.removed = true ∧ s.tallyRead = none
      · have hst : sessStep s SessEv.readTally = { s with tallyRead := some s.consumed } :=
          if_pos hc
        rw [hst]
        refine ⟨h1, ?_⟩
        intro l hl
        exact ⟨(Option.some.inj hl).symm, hc.1⟩
      · have hst : sessStep s SessEv.readTally = s := if_neg hc
        rw [hst]; exact ⟨h1, h2⟩

/-- The session invariant holds in every reachable state. -/
theorem sessRun_inv (evs : List SessEv) :
    ((sessRun evs).removed = true → (sessRun evs).expired = true) ∧
    (∀ l, (sessRun evs).tallyRead = some l →
      l = (sessRun evs).consumed ∧ (sessRun evs).removed = true) := by
  suffices h : ∀ s, (s.removed = true → s.expired = true) →
      (∀ l, s.tallyRead = some l → l = s.consumed ∧ s.removed = true) →
      ((sessRunFrom s evs).removed = true → (sessRunFrom s evs).expired = true) ∧
      (∀ l, (sessRunFrom s evs).tallyRead = some l →
        l = (sessRunFrom s evs).consumed ∧ (sessRunFrom s evs).removed = true) by
    exact h sessInit (fun h => by cases h) (fun l hl => by cases hl)
  induction evs with
  | nil => exact fun s p1 p2 => ⟨p1, p2⟩
  | cons e rest ih =>
      intro s p1 p2
      have hstep := sessStep_inv s e p1 p2
      exact ih (sessStep s e) hstep.1 hstep.2

/-! ## Claim theorems -/

/-- C1, counterexample: for the message text "spam 5 20" the first parseable
token is 5, which is below the allowed range, so the claimed policy ("the very
first parseable token is the candidate; a later in-range integer after an
earlier out-of-range one is never used") yields the 60-second default — but
the code starts a 20-second contest: `find` runs after `filter_map`, so the
out-of-range 5 is skipped and the later in-range 20 is used. -/
theorem duration_first_parseable_refuted :
    handlerDecision false ("spam 5 20") = HandlerAction.startContest 20 false ∧
    specFirstTokenDuration ("spam 5 20") = 60 ∧
    resolveDuration ("spam 5 20") ≠ specFirstTokenDuration ("spam 5 20") := by
  refine ⟨by decide, by decide, by decide⟩

/-- C1 (amended): in an idle channel, a trigger message starts a contest whose
duration is the FIRST whitespace-delimited token that parses as a non-negative
integer AND lies in [10, 3600] seconds; parseable tokens outside the range are
skipped (so a later in-range token after an earlier out-of-range one IS used),
and if no token parses to an in-range value the 60-second default applies. -/
theorem duration_resolution_amended (content : String)
    (h : triggersContest content = true) :
    handlerDecision false content
      = HandlerAction.startContest (resolveDuration content)
          (decide (PIN_ANNOUNCEMENT_THRESHOLD ≤ resolveDuration content)) ∧
    ((∃ pre v post, parsedValues content = pre ++ v :: post ∧
        (∀ u ∈ pre, inAllowedDurationRange u = false) ∧
        inAllowedDurationRange v = true ∧ resolveDuration content = v)
     ∨ ((∀ v ∈ parsedValues content, inAllowedDurationRange v = false) ∧
        resolveDuration content = DEFAULT_CONTEST_DURATION)) := by
  constructor
  · simp [handlerDecision, h]
  · rcases find_first_split inAllowedDurationRange (parsedValues content) with
      ⟨pre, v, post, heq, hpre, hv, hfind⟩ | ⟨hall, hfind⟩
    · exact Or.inl ⟨pre, v, post, heq, hpre, hv, by simp [resolveDuration, hfind]⟩
    · exact Or.inr ⟨hall, by simp [resolveDuration, hfind]⟩

/-- Witness for `duration_resolution_amended` at the message text "spam 5 20". -/
theorem duration_resolution_amended_witness :
    triggersContest ("spam 5 20") = true ∧
    (handlerDecision false ("spam 5 20")
      = HandlerAction.startContest (resolveDuration ("spam 5 20"))
          (decide (PIN_ANNOUNCEMENT_THRESHOLD ≤ resolveDuration ("spam 5 20"))) ∧
     ((∃ pre v post, parsedValues ("spam 5 20") = pre ++ v :: post ∧
         (∀ u ∈ pre, inAllowedDurationRange u = false) ∧
         inAllowedDurationRange v = true ∧ resolveDuration ("spam 5 20") = v)
      ∨ ((∀ v ∈ parsedValues ("spam 5 20"), inAllowedDurationRange v = false) ∧
         resolveDuration ("spam 5 20") = DEFAULT_CONTEST_DURATION))) :=
  ⟨by decide, duration_resolution_amended ("spam 5 20") (by decide)⟩

/-- C2 (the race is real): under the schedule where both tasks pass the
`contests.get` idle check before either reaches `contests.insert` (possible
because the announcement send is awaited in between), BOTH tasks send an
announcement and BOTH sessions reach Collecting — the claimed indivisible
check-and-insert does not hold: two announcements are sent, and B's insert has
replaced (and dropped) A's sender in the registry. -/
theorem start_race_two_announcements :
    (raceRun raceSchedule).annCount = 2 ∧
    (raceRun raceSchedule).pcA = TaskPc.collect ∧
    (raceRun raceSchedule).pcB = TaskPc.collect ∧
    (raceRun raceSchedule).regOwner = some true ∧
    (raceRun raceSchedule).aliveA = false := by decide

/-- C9 (the `unreachable!` branch is reachable): continuing the same race, A's
sender was dropped by B's overwriting insert, so A's receive loop can observe
`None` while A is still Collecting — the session hits the
`unreachable!("mpsc receiver closed unexpectedly")` branch (modelled as the
`panicked` program counter). -/
theorem receiver_closed_branch_reachable :
    (raceRun (raceSchedule ++ [RaceEv.recvClosed false])).closedA = true ∧
    (raceRun (raceSchedule ++ [RaceEv.recvClosed false])).pcA = TaskPc.panicked ∧
    (raceRun (raceSchedule ++ [RaceEv.recvClosed false])).pcB = TaskPc.collect := by decide

/-- C3, counterexample: a message delivered into the sink before the timer
fires (the buffer holds message 7 at expiry) is NOT counted into the tally that
is read at the end: `select!` drops the receive future when the sleep branch
completes, so the buffered message is discarded and the tally read after
`contests.remove` is empty. -/
theorem buffered_message_dropped_at_expiry :
    (sessRun [SessEv.deliver 7, SessEv.expire]).buffer = [7] ∧
    (sessRun [SessEv.deliver 7, SessEv.expire]).expired = true ∧
    (sessRun [SessEv.deliver 7, SessEv.expire, SessEv.removeEntry, SessEv.readTally]).tallyRead
      = some [] := by decide

/-- C3 (amended): when the timer expires the sink is detached and the registry
entry removed before the tally is read (a read tally equals the consumed list
and can only happen after removal, which can only happen after expiry), but
messages still buffered in the sink at expiry are discarded, not drained: after
the timer has fired, no further message is ever counted. -/
theorem expiry_tally_amended (evs more : List SessEv) (l : List Nat) :
    ((sessRun evs).expired = true →
       (sessRun (evs ++ more)).consumed = (sessRun evs).consumed) ∧
    ((sessRun evs).tallyRead = some l →
       l = (sessRun evs).consumed ∧ (sessRun evs).removed = true ∧
       (sessRun evs).expired = true) := by
  constructor
  · intro h
    have heq : sessRun (evs ++ more) = sessRunFrom (sessRun evs) more := by
      simp [sessRun, sessRunFrom, List.foldl_append]
    rw [heq]
    exact sessRunFrom_consumed_frozen more _ h
  · intro h
    rcases sessRun_inv evs with ⟨h1, h2⟩
    rcases h2 l h with ⟨hl, hr⟩
    exact ⟨hl, hr, h1 hr⟩

/-- Witness for `expiry_tally_amended`: a run that counts message 1, expires,
then sees message 2 delivered too late, removes the entry and reads the tally. -/
theorem expiry_tally_amended_witness :
    (sessRun [SessEv.deliver 1, SessEv.recvMsg, SessEv.expire]).expired = true ∧
    (sessRun ([SessEv.deliver 1, SessEv.recvMsg, SessEv.expire]
        ++ [SessEv.deliver 2, SessEv.removeEntry, SessEv.readTally])).consumed
      = (sessRun [SessEv.deliver 1, SessEv.recvMsg, SessEv.expire]).consumed ∧
    (sessRun [SessEv.deliver 1, SessEv.recvMsg, SessEv.expire, SessEv.removeEntry,
        SessEv.readTally]).tallyRead = some [1] ∧
    ([1] = (sessRun [SessEv.deliver 1, SessEv.recvMsg, SessEv.expire, SessEv.removeEntry,
        SessEv.readTally]).consumed ∧
     (sessRun [SessEv.deliver 1, SessEv.recvMsg, SessEv.expire, SessEv.removeEntry,
        SessEv.readTally]).removed = true ∧
     (sessRun [SessEv.deliver 1, SessEv.recvMsg, SessEv.expire, SessEv.removeEntry,
        SessEv.readTally]).expired = true) :=
  ⟨by decide,
   (expiry_tally_amended [SessEv.deliver 1, SessEv.recvMsg, SessEv.expire]
      [SessEv.deliver 2, SessEv.removeEntry, SessEv.readTally] []).1 (by decide),
   by decide,
   (expiry_tally_amended [SessEv.deliver 1, SessEv.recvMsg, SessEv.expire, SessEv.removeEntry,
      SessEv.readTally] [] [1]).2 (by decide)⟩

/-- C6: whenever `Handler::message` starts a contest, the pin flag is true
exactly when the resolved duration reaches `PIN_ANNOUNCEMENT_THRESHOLD`
(300 seconds). -/
theorem pin_iff_threshold (content : String) (d : Nat) (p : Bool)
    (h : handlerDecision false content = HandlerAction.startContest d p) :
    p = true ↔ PIN_ANNOUNCEMENT_THRESHOLD ≤ d := by
  by_cases ht : triggersContest content = true
  · simp only [handlerDecision, ht, if_true, Bool.false_eq_true, if_false,
      HandlerAction.startContest.injEq] at h
    rcases h with ⟨hd, hp⟩
    rw [← hd, ← hp]
    exact decide_eq_true_iff
  · simp [handlerDecision, ht] at h

/-- Witness for `pin_iff_threshold` at both boundaries:
"spam 299" is not pinned, "spam 300" is pinned. -/
theorem pin_iff_threshold_witness :
    handlerDecision false ("spam 300") = HandlerAction.startContest 300 true ∧
    handlerDecision false ("spam 299") = HandlerAction.startContest 299 false ∧
    ((true = true) ↔ PIN_ANNOUNCEMENT_THRESHOLD ≤ 300) ∧
    ((false = true) ↔ PIN_ANNOUNCEMENT_THRESHOLD ≤ 299) :=
  ⟨by decide, by decide,
   pin_iff_threshold ("spam 300") 300 true (by decide),
   pin_iff_threshold ("spam 299") 299 false (by decide)⟩

/-- C10: counting a message adds exactly `s.data.length` — the number of
Unicode scalar values of the text, i.e. Rust `chars().count()`, not the number
of UTF-8 bytes — to the author's character total, and 1 to the message count
(creating the entry as `{1, s.data.length}` on the author's first message). -/
theorem char_count_unicode_scalars (c : Contest) (a : UserId) (s : String) :
    lookupCount a ((c.count ⟨a, s⟩).counts)
      = some (match lookupCount a c.counts with
          | none => (⟨1, s.data.length⟩ : SpamCount)
          | some t => ⟨t.messages + 1, t.characters + s.data.length⟩) := by
  have h := lookupCount_updateCounts c.counts a a (s.data.length)
  rw [if_pos rfl] at h
  exact h

/-- Witness for `char_count_unicode_scalars` on multi-byte text: the string
consisting of a (1 byte), an umlaut a (2 bytes) and a euro sign (3 bytes) has
6 UTF-8 bytes but records a character count of 3. -/
theorem char_count_unicode_scalars_witness :
    lookupCount 1 ((Contest.count ⟨[]⟩ ⟨1, "aä€"⟩).counts) = some ⟨1, 3⟩ ∧
    ("aä€".utf8ByteSize) = 6 ∧ (3 : Nat) ≠ 6 :=
  ⟨char_count_unicode_scalars ⟨[]⟩ 1 ("aä€"), by decide, by decide⟩

/-- C7: at contest end (all sends succeeding): if zero participants were
tallied, the announcement is deleted and no results message is sent; otherwise
a results message containing both rankings (by message count and by character
count) is sent, the announcement is not deleted, and it is unpinned exactly
when it had been pinned. -/
theorem contest_end_effects (pin : Bool) (tallied : Contest) :
    (tallied.counts = [] →
       (runContestEffects true true true pin tallied).effects
         = [ContestEffect.sendAnnouncement]
           ++ (if pin then [ContestEffect.pinAnnouncement] else [])
           ++ [ContestEffect.registryInsert, ContestEffect.registryRemove,
               ContestEffect.deleteAnnouncement] ∧
       (∀ s1 s2, ContestEffect.sendResults s1 s2
          ∉ (runContestEffects true true true pin tallied).effects)) ∧
    (tallied.counts ≠ [] →
       ContestEffect.sendResults (rankingByMessages tallied) (rankingByCharacters tallied)
         ∈ (runContestEffects true true true pin tallied).effects ∧
       ContestEffect.deleteAnnouncement
         ∉ (runContestEffects true true true pin tallied).effects ∧
       (ContestEffect.unpinAnnouncement
          ∈ (runContestEffects true true true pin tallied).effects ↔ pin = true)) := by
  constructor
  · intro hempty
    cases pin <;> simp [runContestEffects, hempty]
  · intro hne
    cases htc : tallied.counts with
    | nil => exact absurd htc hne
    | cons hd tl => cases pin <;> simp [runContestEffects, htc]

/-- Witness for `contest_end_effects`: a pinned fizzled contest (empty tally,
announcement deleted, no results) and an unpinned contest with one participant
(results sent, not deleted, not unpinned). -/
theorem contest_end_effects_witness :
    ((runContestEffects true true true true (⟨[]⟩ : Contest)).effects
       = [ContestEffect.sendAnnouncement, ContestEffect.pinAnnouncement,
          ContestEffect.registryInsert, ContestEffect.registryRemove,
          ContestEffect.deleteAnnouncement] ∧
     (∀ s1 s2, ContestEffect.sendResults s1 s2
        ∉ (runContestEffects true true true true (⟨[]⟩ : Contest)).effects)) ∧
    (ContestEffect.sendResults (rankingByMessages ⟨[(1, ⟨2, 3⟩)]⟩)
        (rankingByCharacters ⟨[(1, ⟨2, 3⟩)]⟩)
       ∈ (runContestEffects true true true false (⟨[(1, ⟨2, 3⟩)]⟩ : Contest)).effects ∧
     ContestEffect.deleteAnnouncement
       ∉ (runContestEffects true true true false (⟨[(1, ⟨2, 3⟩)]⟩ : Contest)).effects ∧
     (ContestEffect.unpinAnnouncement
        ∈ (runContestEffects true true true false (⟨[(1, ⟨2, 3⟩)]⟩ : Contest)).effects
        ↔ false = true)) :=
  ⟨(contest_end_effects true ⟨[]⟩).1 rfl,
   (contest_end_effects false ⟨[(1, ⟨2, 3⟩)]⟩).2 (by simp)⟩

/-- C8: send failures never leak registry state: if the announcement send
fails, `run_contest` aborts having performed no operation at all — in
particular no registry entry is ever created; and whenever the announcement
succeeded, the registry entry is both inserted and removed again, regardless
of whether the results send (or the delete) fails, so after every run the
registry shows the channel idle: no phantom active contest remains. -/
theorem send_failure_registry_atomicity (aOk dOk rOk pin : Bool) (tallied : Contest) :
    (aOk = false →
       (runContestEffects aOk dOk rOk pin tallied).effects = [] ∧
       (runContestEffects aOk dOk rOk pin tallied).ok = false) ∧
    (aOk = true →
       ContestEffect.registryInsert ∈ (runContestEffects aOk dOk rOk pin tallied).effects ∧
       ContestEffect.registryRemove ∈ (runContestEffects aOk dOk rOk pin tallied).effects) ∧
    registryActiveAfter (runContestEffects aOk dOk rOk pin tallied).effects = false := by
  refine ⟨?_, ?_, ?_⟩
  · intro ha; subst ha
    exact ⟨rfl, rfl⟩
  · intro ha; subst ha
    cases htc : tallied.counts with
    | nil => cases dOk <;> cases pin <;> simp [runContestEffects, htc]
    | cons hd tl => cases rOk <;> cases pin <;> simp [runContestEffects, htc]
  · cases aOk with
    | false => rfl
    | true =>
        cases htc : tallied.counts with
        | nil =>
            cases dOk <;> cases pin <;>
              simp [runContestEffects, registryActiveAfter, htc]
        | cons hd tl =>
            cases rOk <;> cases pin <;>
              simp [runContestEffects, registryActiveAfter, htc]

/-- Witness for `send_failure_registry_atomicity`: a failed announcement send
performs nothing; a run whose results send fails still inserts and removes the
registry entry and ends with the registry idle. -/
theorem send_failure_registry_atomicity_witness :
    ((runContestEffects false true true true (⟨[(1, ⟨1, 2⟩)]⟩ : Contest)).effects = [] ∧
     (runContestEffects false true true true (⟨[(1, ⟨1, 2⟩)]⟩ : Contest)).ok = false) ∧
    (ContestEffect.registryInsert
       ∈ (runContestEffects true true false true (⟨[(1, ⟨1, 2⟩)]⟩ : Contest)).effects ∧
     ContestEffect.registryRemove
       ∈ (runContestEffects true true false true (⟨[(1, ⟨1, 2⟩)]⟩ : Contest)).effects) ∧
    registryActiveAfter
      (runContestEffects true true false true (⟨[(1, ⟨1, 2⟩)]⟩ : Contest)).effects = false :=
  ⟨(send_failure_registry_atomicity false true true true ⟨[(1, ⟨1, 2⟩)]⟩).1 rfl,
   (send_failure_registry_atomicity true true false true ⟨[(1, ⟨1, 2⟩)]⟩).2.1 rfl,
   (send_failure_registry_atomicity true true false true ⟨[(1, ⟨1, 2⟩)]⟩).2.2⟩

/-! ## Ranking lemmas -/

/-- `chunkByGo` only regroups: flattening returns the input. -/
theorem chunkByGo_flatten {α K : Type} [DecidableEq K] (k : α → K)
    (l : List α) : ∀ (x : α) (acc : List α),
    (chunkByGo k l x acc).flatten = x :: (acc ++ l) := by
  induction l with
  | nil => intro x acc; simp [chunkByGo]
  | cons y ys ih =>
      intro x acc
      by_cases h : k y = k x
      · simp only [chunkByGo, if_pos h, ih x (acc ++ [y])]
        simp
      · simp only [chunkByGo, if_neg h]
        simp [ih y []]

/-- `chunk_by` only regroups: flattening returns the input. -/
theorem chunkBy_flatten {α K : Type} [DecidableEq K] (k : α → K) (l : List α) :
    (chunkBy k l).flatten = l := by
  cases l with
  | nil => rfl
  | cons x xs => simp [chunkBy, chunkByGo_flatten]

/-- On a key-sorted input, the groups produced by `chunkByGo` are strictly
separated: every element of an earlier group has a strictly smaller key than
every element of a later group. -/
theorem chunkByGo_sep {α K : Type} [LinearOrder K] (k : α → K)
    (l : List α) : ∀ (x : α) (acc : List α),
    List.Pairwise (keyLe k) (x :: (acc ++ l)) →
    (∀ a ∈ acc, k a = k x) →
    List.Pairwise (fun g1 g2 => ∀ a ∈ g1, ∀ b ∈ g2, k a < k b) (chunkByGo k l x acc) := by
  induction l with
  | nil =>
      intro x acc _ _
      simp only [chunkByGo]
      exact List.pairwise_singleton _ _
  | cons y ys ih =>
      intro x acc hsort hacc
      by_cases h : k y = k x
      · simp only [chunkByGo, if_pos h]
        apply ih x (acc ++ [y])
        · have heq : x :: ((acc ++ [y]) ++ ys) = x :: (acc ++ y :: ys) := by simp
          rw [heq]
          exact hsort
        · intro a ha
          rcases List.mem_append.mp ha with ha | ha
          · exact hacc a ha
          · rw [List.mem_singleton.mp ha]
            exact h
      · simp only [chunkByGo, if_neg h]
        rw [List.pairwise_cons]
        have htail : List.Pairwise (keyLe k) (acc ++ y :: ys) :=
          (List.pairwise_cons.mp hsort).2
        have hyys : List.Pairwise (keyLe k) (y :: ys) :=
          htail.sublist (List.sublist_append_right acc (y :: ys))
        have hxy : k x < k y := by
          have hle : keyLe k x y := List.rel_of_pairwise_cons hsort (by simp)
          exact lt_of_le_of_ne hle (fun he => h he.symm)
        constructor
        · intro g' hg' a ha b hb
          have hbmem : b ∈ (chunkByGo k ys y []).flatten :=
            List.mem_flatten.mpr ⟨g', hg', hb⟩
          rw [chunkByGo_flatten] at hbmem
          have hka : k a = k x := by
            rcases List.mem_cons.mp ha with ha | ha
            · rw [ha]
            · exact hacc a ha
          rw [hka]
          rcases List.mem_cons.mp (by simpa using hbmem) with hb' | hb'
          · rw [hb']; exact hxy
          · have hyb : keyLe k y b := List.rel_of_pairwise_cons hyys hb'
            exact lt_of_lt_of_le hxy hyb
        · apply ih y []
          · simpa using hyys
          · intro a ha; cases ha

/-- On a key-sorted input the groups of `chunk_by` are strictly separated. -/
theorem chunkBy_sep {α K : Type} [LinearOrder K] (k : α → K) (l : List α)
    (h : List.Pairwise (keyLe k) l) :
    List.Pairwise (fun g1 g2 => ∀ a ∈ g1, ∀ b ∈ g2, k a < k b) (chunkBy k l) := by
  cases l with
  | nil => exact List.Pairwise.nil
  | cons x xs =>
      simp only [chunkBy]
      apply chunkByGo_sep k xs x []
      · simpa using h
      · intro a ha; cases ha

/-- The rank loop does not change the groups. -/
theorem assignGroupRanks_map_snd {α : Type} (gs : List (List α)) :
    ∀ (r : Nat), (assignGroupRanks r gs).map Prod.snd = gs := by
  induction gs with
  | nil => intro r; rfl
  | cons g rest ih => intro r; simp [assignGroupRanks, ih]

/-- The first assigned rank is the starting rank. -/
theorem assignGroupRanks_head_rank {α : Type} (r : Nat) (gs : List (List α))
    (rg : Nat × List α) (rest : List (Nat × List α))
    (h : assignGroupRanks r gs = rg :: rest) : rg.1 = r := by
  cases gs with
  | nil => cases h
  | cons g grest =>
      simp only [assignGroupRanks] at h
      injection h with h1 h2
      rw [← h1]

/-- Each group's successor rank is its own rank plus its size. -/
theorem assignGroupRanks_get_succ {α : Type} (gs : List (List α)) :
    ∀ (r : Nat) (i : Nat) (h : i + 1 < (assignGroupRanks r gs).length),
      ((assignGroupRanks r gs).get ⟨i + 1, h⟩).1
        = ((assignGroupRanks r gs).get ⟨i, Nat.lt_of_succ_lt h⟩).1
          + ((assignGroupRanks r gs).get ⟨i, Nat.lt_of_succ_lt h⟩).2.length := by
  induction gs with
  | nil => intro r i h; simp [assignGroupRanks] at h
  | cons g rest ih =>
      intro r i h
      cases i with
      | zero =>
          cases rest with
          | nil => simp [assignGroupRanks] at h
          | cons g2 rest2 => simp [assignGroupRanks]
      | succ j =>
          simp only [assignGroupRanks, List.get_cons_succ]
          exact ih (r + g.length) j (by simpa [assignGroupRanks] using h)

/-- Lift a pairwise relation on the groups through the rank loop. -/
theorem assignGroupRanks_pairwise {α : Type} {R : List α → List α → Prop}
    (gs : List (List α)) (r : Nat) (h : List.Pairwise R gs) :
    List.Pairwise (fun p q => R p.2 q.2) (assignGroupRanks r gs) := by
  have hmap := assignGroupRanks_map_snd gs r
  rw [← hmap] at h
  exact (List.pairwise_map).mp h

theorem assignGroupRanks_mem_snd {α : Type} {gs : List (List α)} {r : Nat}
    {rg : Nat × List α} (h : rg ∈ assignGroupRanks r gs) : rg.2 ∈ gs := by
  have hmem := List.mem_map_of_mem Prod.snd h
  rwa [assignGroupRanks_map_snd] at hmem

/-- The rank tiers of `ranking_by` are strictly separated by key. -/
theorem rankedGroups_sep {K : Type} [LinearOrder K] (fk : SpamCount → K)
    (counts : List (UserId × SpamCount)) :
    List.Pairwise (fun rg1 rg2 => ∀ p1 ∈ rg1.2, ∀ p2 ∈ rg2.2, fk p1.2 < fk p2.2)
      (rankedGroups fk counts) := by
  exact @assignGroupRanks_pairwise _
    (fun g1 g2 : List (UserId × SpamCount) => ∀ p1 ∈ g1, ∀ p2 ∈ g2, fk p1.2 < fk p2.2) _ 1
    (chunkBy_sep (pairKey fk) _
      (List.sorted_insertionSort (keyLe (pairKey fk)) counts))

/-- C4: the ranking uses competition (1224-style) ranking, for every tally and
every ranking metric: (1) any two participants whose metric values compare
equal receive the same rank number; (2) rank numbering starts at 1; (3) each
next tier's rank number equals the previous tier's rank number plus the size
of that tier; (4) consecutive tiers hold strictly different (increasing in
sort order) metric values. -/
theorem ranking_competition_style {K : Type} [LinearOrder K] (fk : SpamCount → K)
    (counts : List (UserId × SpamCount)) :
    (∀ rg1 ∈ rankedGroups fk counts, ∀ rg2 ∈ rankedGroups fk counts,
       ∀ p1 ∈ rg1.2, ∀ p2 ∈ rg2.2, fk p1.2 = fk p2.2 → rg1.1 = rg2.1) ∧
    (∀ rg0 rest, rankedGroups fk counts = rg0 :: rest → rg0.1 = 1) ∧
    (∀ i : Nat, ∀ h : i + 1 < (rankedGroups fk counts).length,
       ((rankedGroups fk counts).get ⟨i + 1, h⟩).1
         = ((rankedGroups fk counts).get ⟨i, Nat.lt_of_succ_lt h⟩).1
           + ((rankedGroups fk counts).get ⟨i, Nat.lt_of_succ_lt h⟩).2.length) ∧
    (∀ i : Nat, ∀ h : i + 1 < (rankedGroups fk counts).length,
       ∀ p1 ∈ ((rankedGroups fk counts).get ⟨i, Nat.lt_of_succ_lt h⟩).2,
       ∀ p2 ∈ ((rankedGroups fk counts).get ⟨i + 1, h⟩).2, fk p1.2 < fk p2.2) := by
  refine ⟨?_, ?_, ?_, ?_⟩
  · intro rg1 h1 rg2 h2 p1 hp1 p2 hp2 hkey
    by_contra hne
    have hS : List.Pairwise (fun rg1 rg2 : Nat × List (UserId × SpamCount) =>
        ∀ a ∈ rg1.2, ∀ b ∈ rg2.2, fk a.2 ≠ fk b.2) (rankedGroups fk counts) :=
      (rankedGroups_sep fk counts).imp
        (fun hlt a ha b hb => ne_of_lt (hlt a ha b hb))
    have hsymm : Symmetric (fun rg1 rg2 : Nat × List (UserId × SpamCount) =>
        ∀ a ∈ rg1.2, ∀ b ∈ rg2.2, fk a.2 ≠ fk b.2) :=
      fun q1 q2 hq a ha b hb => (hq b hb a ha).symm
    have hprs : rg1 ≠ rg2 := fun he => hne (by rw [he])
    exact (hS.forall hsymm h1 h2 hprs) p1 hp1 p2 hp2 hkey
  · intro rg0 rest h
    exact assignGroupRanks_head_rank 1 _ rg0 rest h
  · intro i h
    exact assignGroupRanks_get_succ _ 1 i h
  · intro i h p1 hp1 p2 hp2
    have hadj := (List.pairwise_iff_get.mp (rankedGroups_sep fk counts))
      ⟨i, Nat.lt_of_succ_lt h⟩ ⟨i + 1, h⟩ (by exact Nat.lt_succ_self i)
    exact hadj p1 hp1 p2 hp2

/-- Witness for `ranking_competition_style` on the tally of section 8
scenario 2 (message counts 5/5/2): the two authors with 5 messages share one
rank, the first tier's rank is 1, the second tier's rank is 1 + 1 = 2, and the
tiers hold strictly increasing keys (2 < 5). -/
theorem ranking_competition_style_witness :
    (2 : Nat) = 2 ∧ (1 : Nat) = 1 ∧ (2 : Nat) = 1 + 1 ∧ (2 : Nat) < 5 := by
  have hmain := ranking_competition_style (fun s : SpamCount => s.messages)
    [(1, ⟨5, 50⟩), (2, ⟨5, 30⟩), (3, ⟨2, 99⟩)]
  refine ⟨?_, ?_, ?_, ?_⟩
  · exact hmain.1 (2, [(1, ⟨5, 50⟩), (2, ⟨5, 30⟩)]) (by decide)
      (2, [(1, ⟨5, 50⟩), (2, ⟨5, 30⟩)]) (by decide)
      (1, ⟨5, 50⟩) (by decide) (2, ⟨5, 30⟩) (by decide) (by decide)
  · exact hmain.2.1 (1, [(3, ⟨2, 99⟩)]) [(2, [(1, ⟨5, 50⟩), (2, ⟨5, 30⟩)])] (by decide)
  · exact hmain.2.2.1 0 (by decide)
  · exact hmain.2.2.2 0 (by decide) (3, ⟨2, 99⟩) (by decide) (1, ⟨5, 50⟩) (by decide)

/-- Folding messages into a tally whose entry for `a` is already `t`:
the entry accumulates a's message count and character sum. -/
theorem tally_lookup_of_some (ms : List ChatMessage) :
    ∀ (c : Contest) (a : UserId) (t : SpamCount),
    lookupCount a c.counts = some t →
    lookupCount a ((ms.foldl Contest.count c).counts)
      = some ⟨t.messages + (msgsBy a ms).length,
              t.characters + ((msgsBy a ms).map charsOf).sum⟩ := by
  induction ms with
  | nil =>
      intro c a t h
      rw [List.foldl_nil, h]
      rfl
  | cons m rest ih =>
      intro c a t h
      have hstep : List.foldl Contest.count c (m :: rest)
          = List.foldl Contest.count (c.count m) rest := rfl
      rw [hstep]
      by_cases ham : m.author = a
      · have hlk : lookupCount a ((c.count m).counts)
            = some ⟨t.messages + 1, t.characters + charsOf m⟩ := by
          show lookupCount a (updateCounts c.counts m.author (charsOf m)) = _
          rw [ham, lookupCount_updateCounts c.counts a a (charsOf m), if_pos rfl, h]
        have hrec := ih (c.count m) a ⟨t.messages + 1, t.characters + charsOf m⟩ hlk
        rw [hrec]
        have hfil : msgsBy a (m :: rest) = m :: msgsBy a rest := by
          simp [msgsBy, List.filter_cons, ham]
        rw [hfil]
        simp only [List.length_cons, List.map_cons, List.sum_cons, Option.some.injEq,
          SpamCount.mk.injEq]
        constructor <;> omega
      · have hlk : lookupCount a ((c.count m).counts) = some t := by
          show lookupCount a (updateCounts c.counts m.author (charsOf m)) = _
          rw [lookupCount_updateCounts c.counts a m.author (charsOf m),
            if_neg (fun he => ham he.symm), h]
        have hfil : msgsBy a (m :: rest) = msgsBy a rest := by
          simp [msgsBy, List.filter_cons, ham]
        rw [hfil]
        exact ih (c.count m) a t hlk

/-- Folding messages into a tally with no entry for `a` yet: the final entry
for `a` is the sum of a's contributions, or absent if a sent nothing. -/
theorem tally_lookup_of_none (ms : List ChatMessage) :
    ∀ (c : Contest) (a : UserId),
    lookupCount a c.counts = none →
    lookupCount a ((ms.foldl Contest.count c).counts)
      = if (msgsBy a ms).length = 0 then none
        else some ⟨(msgsBy a ms).length, ((msgsBy a ms).map charsOf).sum⟩ := by
  induction ms with
  | nil =>
      intro c a h
      rw [List.foldl_nil, h]
      rfl
  | cons m rest ih =>
      intro c a h
      have hstep : List.foldl Contest.count c (m :: rest)
          = List.foldl Contest.count (c.count m) rest := rfl
      rw [hstep]
      by_cases ham : m.author = a
      · have hlk : lookupCount a ((c.count m).counts) = some ⟨1, charsOf m⟩ := by
          show lookupCount a (updateCounts c.counts m.author (charsOf m)) = _
          rw [ham, lookupCount_updateCounts c.counts a a (charsOf m), if_pos rfl, h]
        have hrec := tally_lookup_of_some rest (c.count m) a ⟨1, charsOf m⟩ hlk
        rw [hrec]
        have hfil : msgsBy a (m :: rest) = m :: msgsBy a rest := by
          simp [msgsBy, List.filter_cons, ham]
        rw [hfil]
        simp only [List.length_cons, List.map_cons, List.sum_cons]
        rw [if_neg (Nat.succ_ne_zero _)]
        simp only [Option.some.injEq, SpamCount.mk.injEq]
        exact ⟨by omega, trivial⟩
      · have hlk : lookupCount a ((c.count m).counts) = none := by
          show lookupCount a (updateCounts c.counts m.author (charsOf m)) = _
          rw [lookupCount_updateCounts c.counts a m.author (charsOf m),
            if_neg (fun he => ham he.symm), h]
        have hfil : msgsBy a (m :: rest) = msgsBy a rest := by
          simp [msgsBy, List.filter_cons, ham]
        rw [hfil]
        exact ih (c.count m) a hlk

/-- `updateCounts` keeps the key list, appending the new author at the end
when absent. -/
theorem updateCounts_map_fst (l : List (UserId × SpamCount)) (b : UserId) (n : Nat) :
    (updateCounts l b n).map Prod.fst
      = if b ∈ l.map Prod.fst then l.map Prod.fst else l.map Prod.fst ++ [b] := by
  induction l with
  | nil => simp [updateCounts]
  | cons hd rest ih =>
      obtain ⟨u, c⟩ := hd
      by_cases hub : u = b
      · subst hub
        simp [updateCounts]
      · simp only [updateCounts, if_neg hub, List.map_cons, ih]
        by_cases hbr : b ∈ rest.map Prod.fst
        · simp [hbr, List.mem_cons]
        · have hbu : ¬b = u := fun h => hub h.symm
          simp [hbr, hbu, List.mem_cons]

/-- `updateCounts` preserves distinctness of the author keys. -/
theorem updateCounts_nodup (l : List (UserId × SpamCount)) (b : UserId) (n : Nat)
    (h : (l.map Prod.fst).Nodup) : ((updateCounts l b n).map Prod.fst).Nodup := by
  rw [updateCounts_map_fst]
  by_cases hb : b ∈ l.map Prod.fst
  · simpa [hb] using h
  · rw [if_neg hb]
    refine h.append (List.nodup_singleton b) ?_
    intro x hx hxb
    rw [List.mem_singleton.mp hxb] at hx
    exact hb hx

/-- The tally's author keys are distinct throughout. -/
theorem runTally_nodup_keys (ms : List ChatMessage) :
    (((runTally ms).counts).map Prod.fst).Nodup := by
  suffices h : ∀ (c : Contest), ((c.counts.map Prod.fst).Nodup) →
      ((((ms.foldl Contest.count c).counts).map Prod.fst).Nodup) by
    exact h ⟨[]⟩ (by simp)
  induction ms with
  | nil => intro c hc; exact hc
  | cons m rest ih =>
      intro c hc
      exact ih (c.count m) (updateCounts_nodup c.counts m.author (charsOf m) hc)

/-- In a duplicate-free list, a member is counted exactly once. -/
theorem countP_eq_one_of_nodup_mem {a : UserId} :
    ∀ (xs : List UserId), xs.Nodup → a ∈ xs →
      xs.countP (fun u => decide (u = a)) = 1 := by
  intro xs
  induction xs with
  | nil => intro _ h; cases h
  | cons x rest ih =>
      intro hnd hmem
      rcases List.mem_cons.mp hmem with h | h
      · subst h
        rw [List.countP_cons_of_pos]
        · have hnotin : a ∉ rest := (List.nodup_cons.mp hnd).1
          have h0 : rest.countP (fun u => decide (u = a)) = 0 :=
            List.countP_eq_zero.mpr (fun b hb hpb =>
              hnotin ((of_decide_eq_true hpb) ▸ hb))
          rw [h0]
        · simp
      · have hx : ¬(x = a) := fun he => (List.nodup_cons.mp hnd).1 (he ▸ h)
        rw [List.countP_cons_of_neg]
        · exact ih (List.nodup_cons.mp hnd).2 h
        · simp [hx]

/-- The flat ranking entries are a permutation of the tally entries. -/
theorem rankedEntries_map_snd_perm {K : Type} [LinearOrder K] (fk : SpamCount → K)
    (counts : List (UserId × SpamCount)) :
    ((rankedEntries fk counts).map Prod.snd).Perm counts := by
  have h1 : (rankedEntries fk counts).map Prod.snd
      = (rankedGroups fk counts).flatMap (fun rg => rg.2) := by
    rw [rankedEntries, List.map_flatMap]
    congr 1
    funext rg
    rw [List.map_map]
    have h2 : (Prod.snd ∘ fun p : UserId × SpamCount =>
        ((rg.1, p.1, p.2) : Nat × UserId × SpamCount)) = id := by
      funext p; rfl
    rw [h2, List.map_id]
  have h3 : (rankedGroups fk counts).flatMap (fun rg => rg.2)
      = List.insertionSort (keyLe (pairKey fk)) counts := by
    rw [List.flatMap_def]
    have h4 : (rankedGroups fk counts).map (fun rg => rg.2)
        = chunkBy (pairKey fk) (List.insertionSort (keyLe (pairKey fk)) counts) := by
      rw [rankedGroups]
      exact assignGroupRanks_map_snd _ 1
    rw [h4, chunkBy_flatten]
  rw [h1, h3]
  exact List.perm_insertionSort _ counts

/-- C5: each counted message increments its author's message count by exactly 1
and character count by the message's character length (creating the entry as
{messages: 1, characters: charCount} on the author's first message), so the
tally maps every author who sent a message to the exact sum of that author's
contributions, authors never appear twice, and for every ranking metric the
flat ranking is a permutation of the tally — every distinct author appears in
it exactly once with their accumulated totals. -/
theorem tally_totals_and_unique_authors (ms : List ChatMessage) (a : UserId) :
    (a ∈ ms.map ChatMessage.author →
       lookupCount a (runTally ms).counts
         = some ⟨(msgsBy a ms).length, ((msgsBy a ms).map charsOf).sum⟩) ∧
    (a ∉ ms.map ChatMessage.author → lookupCount a (runTally ms).counts = none) ∧
    ((runTally ms).counts.map Prod.fst).Nodup ∧
    (∀ (K : Type) [_inst : LinearOrder K] (fk : SpamCount → K),
       ((rankedEntries fk (runTally ms).counts).map Prod.snd).Perm (runTally ms).counts ∧
       (a ∈ ms.map ChatMessage.author →
         ((rankedEntries fk (runTally ms).counts).filter
            (fun e => decide (e.2.1 = a))).length = 1)) := by
  have hbase : lookupCount a ((⟨[]⟩ : Contest)).counts = none := rfl
  have hnone := tally_lookup_of_none ms ⟨[]⟩ a hbase
  have hpart1 : a ∈ ms.map ChatMessage.author →
      lookupCount a (runTally ms).counts
        = some ⟨(msgsBy a ms).length, ((msgsBy a ms).map charsOf).sum⟩ := by
    intro hmem
    obtain ⟨m, hm, hma⟩ := List.mem_map.mp hmem
    have hmf : m ∈ msgsBy a ms := List.mem_filter.mpr ⟨hm, by simp [hma]⟩
    have hlen : (msgsBy a ms).length ≠ 0 := by
      intro h0
      rw [List.length_eq_zero] at h0
      rw [h0] at hmf
      cases hmf
    simp only [runTally]
    rw [hnone, if_neg hlen]
  refine ⟨hpart1, ?_, runTally_nodup_keys ms, ?_⟩
  · intro hnot
    have hfil : msgsBy a ms = [] := by
      rw [msgsBy, List.filter_eq_nil_iff]
      intro m hm
      simp only [decide_eq_true_eq]
      intro he
      exact hnot (List.mem_map.mpr ⟨m, hm, he⟩)
    simp only [runTally]
    rw [hnone, hfil]
    simp
  · intro K inst fk
    refine ⟨rankedEntries_map_snd_perm fk (runTally ms).counts, ?_⟩
    intro hmem
    rw [← List.countP_eq_length_filter]
    have hstep1 : (rankedEntries fk (runTally ms).counts).countP (fun e => decide (e.2.1 = a))
        = ((rankedEntries fk (runTally ms).counts).map Prod.snd).countP
            (fun q => decide (q.1 = a)) := by
      rw [List.countP_map]
      rfl
    rw [hstep1,
      List.Perm.countP_eq _ (rankedEntries_map_snd_perm fk (runTally ms).counts)]
    have hstep2 : ((runTally ms).counts).countP (fun q => decide (q.1 = a))
        = (((runTally ms).counts).map Prod.fst).countP (fun u => decide (u = a)) := by
      rw [List.countP_map]
      rfl
    rw [hstep2]
    apply countP_eq_one_of_nodup_mem _ (runTally_nodup_keys ms)
    have hne : lookupCount a (runTally ms).counts ≠ none := by
      rw [hpart1 hmem]
      simp
    by_contra habs
    exact hne ((lookupCount_eq_none a ((runTally ms).counts)).mpr habs)

/-- Witness for `tally_totals_and_unique_authors`: author 1 sends "ab" and "d"
(2 messages, 3 characters), author 2 sends "c", author 5 sends nothing. -/
theorem tally_totals_and_unique_authors_witness :
    ((1 : UserId) ∈ ([⟨1, "ab"⟩, ⟨2, "c"⟩, ⟨1, "d"⟩] : List ChatMessage).map ChatMessage.author) ∧
    lookupCount 1 (runTally [⟨1, "ab"⟩, ⟨2, "c"⟩, ⟨1, "d"⟩]).counts = some ⟨2, 3⟩ ∧
    ((5 : UserId) ∉ ([⟨1, "ab"⟩, ⟨2, "c"⟩, ⟨1, "d"⟩] : List ChatMessage).map ChatMessage.author) ∧
    lookupCount 5 (runTally [⟨1, "ab"⟩, ⟨2, "c"⟩, ⟨1, "d"⟩]).counts = none ∧
    ((runTally [⟨1, "ab"⟩, ⟨2, "c"⟩, ⟨1, "d"⟩]).counts.map Prod.fst).Nodup ∧
    ((rankedEntries (fun s : SpamCount => s.messages)
        (runTally [⟨1, "ab"⟩, ⟨2, "c"⟩, ⟨1, "d"⟩]).counts).map Prod.snd).Perm
      (runTally [⟨1, "ab"⟩, ⟨2, "c"⟩, ⟨1, "d"⟩]).counts ∧
    ((rankedEntries (fun s : SpamCount => s.messages)
        (runTally [⟨1, "ab"⟩, ⟨2, "c"⟩, ⟨1, "d"⟩]).counts).filter
          (fun e => decide (e.2.1 = 1))).length = 1 := by
  have h1 := tally_totals_and_unique_authors [⟨1, "ab"⟩, ⟨2, "c"⟩, ⟨1, "d"⟩] 1
  have h5 := tally_totals_and_unique_authors [⟨1, "ab"⟩, ⟨2, "c"⟩, ⟨1, "d"⟩] 5
  refine ⟨by decide, ?_, by decide, ?_, h1.2.2.1,
    (h1.2.2.2 Nat (fun s => s.messages)).1, ?_⟩
  · exact h1.1 (by decide)
  · exact h5.2.1 (by decide)
  · exact (h1.2.2.2 Nat (fun s => s.messages)).2 (by decide)
